import Mathlib

/-!
Verification of the Q-Bloch quantum-circuit simulator.

This file gives a shallow embedding of the simulator's core: the `Complex`
value class, the `QuantumState` amplitude-vector class with gate application,
partial trace and Bloch-vector extraction, the `QuantumGates` catalog, the
circuit placement model and the two executors (`handleCircuitRun` for a full
run and `updateSteppedState` for a run with a step cutoff), together with a
small reference/heap model used to reason about mutation of receiver objects.
JavaScript `number` values are idealized as real numbers; basis-state indices
are natural numbers and the JavaScript bitwise operators `&`, `|`, `^`, `<<`,
`>>` and `~` on them are embedded as the corresponding operations on `Nat`
(`x & ~m` becomes `Nat.ldiff x m`), which agrees with the 32-bit JavaScript
semantics on all indices below 2^31, i.e. whenever the state vector fits in
memory.
-/

namespace QBloch

/-- Embedding of the `Complex` class: an immutable real/imaginary pair. -/
@[ext]
structure Complex where
  real : ℝ
  imaginary : ℝ

/-- Embedding of `Complex.add`. -/
def Complex.add (a b : Complex) : Complex :=
  ⟨a.real + b.real, a.imaginary + b.imaginary⟩

/-- Embedding of `Complex.subtract`. -/
def Complex.subtract (a b : Complex) : Complex :=
  ⟨a.real - b.real, a.imaginary - b.imaginary⟩

/-- Embedding of `Complex.multiply` (standard complex product). -/
def Complex.multiply (a b : Complex) : Complex :=
  ⟨a.real * b.real - a.imaginary * b.imaginary,
   a.real * b.imaginary + a.imaginary * b.real⟩

/-- Embedding of `Complex.conjugate`. -/
def Complex.conjugate (a : Complex) : Complex :=
  ⟨a.real, -a.imaginary⟩

/-- Embedding of `Complex.magnitude` (= √(re² + im²)). -/
noncomputable def Complex.magnitude (a : Complex) : ℝ :=
  Real.sqrt (a.real * a.real + a.imaginary * a.imaginary)

/-- The zero complex number `new Complex(0, 0)`. -/
def Complex.zero : Complex := ⟨0, 0⟩

/-- The squared magnitude, used to reason about Σ|amplitude|². -/
def Complex.normSq (a : Complex) : ℝ :=
  a.real * a.real + a.imaginary * a.imaginary

instance : Zero Complex := ⟨Complex.zero⟩

instance : Add Complex := ⟨Complex.add⟩

instance : AddCommMonoid Complex where
  add := (· + ·)
  zero := 0
  nsmul := nsmulRec
  nsmul_zero := fun _ => rfl
  nsmul_succ := fun _ _ => rfl
  add_assoc a b c := by
    show Complex.add (Complex.add a b) c = Complex.add a (Complex.add b c)
    simp only [Complex.add]
    exact Complex.ext (by ring) (by ring)
  zero_add a := by
    show Complex.add Complex.zero a = a
    simp only [Complex.add, Complex.zero]
    exact Complex.ext (by ring) (by ring)
  add_zero a := by
    show Complex.add a Complex.zero = a
    simp only [Complex.add, Complex.zero]
    exact Complex.ext (by ring) (by ring)
  add_comm a b := by
    show Complex.add a b = Complex.add b a
    simp only [Complex.add]
    exact Complex.ext (by ring) (by ring)

theorem Complex.add_def (a b : Complex) : a.add b = a + b := rfl

theorem Complex.zero_def : Complex.zero = 0 := rfl

/-- A 2×2 gate matrix, indexed `gate[newBit][oldBit]` as in the source. -/
abbrev Gate := List (List Complex)

/-- Array access `gate[i][j]` on a gate matrix. -/
def entry (g : Gate) (i j : Nat) : Complex :=
  (g.getD i []).getD j Complex.zero

/-- Embedding of the `QuantumState` class: qubit count plus amplitude vector. -/
structure QuantumState where
  numQubits : Nat
  amplitudes : List Complex

/-- Embedding of the `QuantumState` constructor: when an initial state is
supplied it is copied verbatim (`[...initialState]`, no length validation);
otherwise the |00...0⟩ state of size 2^numQubits is built. -/
def QuantumState.construct (numQubits : Nat) (initialState : Option (List Complex)) :
    QuantumState :=
  let size := 2 ^ numQubits
  match initialState with
  | some init => ⟨numQubits, init⟩
  | none => ⟨numQubits, (List.range size).map (fun i => ⟨if i = 0 then 1 else 0, 0⟩)⟩

/-- Embedding of `getAmplitudes` (returns a copy of the amplitude array). -/
def QuantumState.getAmplitudes (st : QuantumState) : List Complex :=
  st.amplitudes

/-- Embedding of `getNumQubits`. -/
def QuantumState.getNumQubits (st : QuantumState) : Nat :=
  st.numQubits

/-- Amplitude lookup `this.amplitudes[i]`, as a total function. -/
def QuantumState.amp (st : QuantumState) (i : Nat) : Complex :=
  st.amplitudes.getD i Complex.zero

/-- Embedding of `getDensityMatrix`: ρ[i][j] = amplitudes[i]·conj(amplitudes[j]). -/
def QuantumState.getDensityMatrix (st : QuantumState) : List (List Complex) :=
  let size := st.amplitudes.length
  (List.range size).map (fun i =>
    (List.range size).map (fun j =>
      (st.amp i).multiply ((st.amp j).conjugate)))

/-- One entry of the 2×2 reduced density matrix: the partial-trace loop in
`getReducedDensityMatrix` accumulates `rho[i][j]` into `reducedRho[iBit][jBit]`
whenever the bits of `i` and `j` other than the target qubit agree, so the final
`reducedRho[b0][b1]` is the sum of `rho[i][j]` over exactly those index pairs
with `iBit = b0` and `jBit = b1`. -/
def reducedEntry (st : QuantumState) (pos : Nat) (b0 b1 : Nat) : Complex :=
  let size := st.amplitudes.length
  Finset.sum (Finset.range size) (fun i =>
    Finset.sum (Finset.range size) (fun j =>
      if (i >>> pos) &&& 1 = b0 ∧ (j >>> pos) &&& 1 = b1 ∧
          Nat.ldiff i (1 <<< pos) = Nat.ldiff j (1 <<< pos) then
        ((st.amp i).multiply ((st.amp j).conjugate))
      else 0))

/-- Embedding of `getReducedDensityMatrix`: throws on `qubitIndex >= numQubits`
(and only then), otherwise partial-traces down to a 2×2 matrix.  The bit
position `numQubits - 1 - qubitIndex` is nonnegative in every case that passes
the guard with `qubitIndex ≥ 0`, and also for every negative `qubitIndex`;
`Int.toNat` packages it for the `Nat`-valued shifts. -/
def QuantumState.getReducedDensityMatrix (st : QuantumState) (qubitIndex : Int) :
    Except String (List (List Complex)) :=
  if qubitIndex ≥ (st.numQubits : Int) then
    .error ("Invalid qubit index: " ++ toString qubitIndex)
  else
    let pos := ((st.numQubits : Int) - 1 - qubitIndex).toNat
    .ok [[reducedEntry st pos 0 0, reducedEntry st pos 0 1],
         [reducedEntry st pos 1 0, reducedEntry st pos 1 1]]

/-- The {x, y, z} record returned by `getBlochVector`. -/
structure BlochV where
  x : ℝ
  y : ℝ
  z : ℝ

/-- Embedding of `getBlochVector`: Pauli expectations read off the reduced
density matrix; a failure of `getReducedDensityMatrix` propagates. -/
def QuantumState.getBlochVector (st : QuantumState) (qubitIndex : Int) :
    Except String BlochV :=
  match st.getReducedDensityMatrix qubitIndex with
  | .error e => .error e
  | .ok rho =>
    let r00 := entry rho 0 0
    let r01 := entry rho 0 1
    let r10 := entry rho 1 0
    let r11 := entry rho 1 1
    .ok ⟨(r01.add r10).real,
         ((r01.subtract r10).multiply ⟨0, -1⟩).real,
         (r00.subtract r11).real⟩

/-- Pointwise update of a function-represented array, `arr[i] = v`. -/
def upd (f : Nat → Complex) (i : Nat) (v : Complex) : Nat → Complex :=
  fun j => if j = i then v else f j

/-- The body of `applyGate`'s loop over `state`, with the two-iteration inner
loop over `newQubitBit` unrolled: each `newQubitBit ∈ {0, 1}` adds
`amplitudes[state] * gate[newQubitBit][qubitBit]` into
`newAmplitudes[otherBits | (newQubitBit << position)]`. -/
def applyGateStep (n : Nat) (g : Gate) (q : Nat) (amps : Nat → Complex)
    (acc : Nat → Complex) (state : Nat) : Nat → Complex :=
  let pos := n - 1 - q
  let qubitBit := (state >>> pos) &&& 1
  let otherBits := Nat.ldiff state (1 <<< pos)
  let ns0 := otherBits ||| (0 <<< pos)
  let acc0 := upd acc ns0 ((acc ns0).add ((amps state).multiply (entry g 0 qubitBit)))
  let ns1 := otherBits ||| (1 <<< pos)
  upd acc0 ns1 ((acc0 ns1).add ((amps state).multiply (entry g 1 qubitBit)))

/-- Embedding of `applyGate` at the amplitude-array level: fold the per-state
accumulation over all basis states, starting from an all-zero array of the
same length, and read the result back into a list. -/
def applyGateList (n : Nat) (g : Gate) (q : Nat) (amps : List Complex) : List Complex :=
  let size := amps.length
  let ampsF := fun i => amps.getD i Complex.zero
  let final := (List.range size).foldl (applyGateStep n g q ampsF) (fun _ => Complex.zero)
  (List.range size).map final

/-- Embedding of `QuantumState.applyGate`: returns a new state. -/
def QuantumState.applyGate (st : QuantumState) (g : Gate) (q : Nat) : QuantumState :=
  ⟨st.numQubits, applyGateList st.numQubits g q st.amplitudes⟩

/-- Swap of two cells of a function-represented array. -/
def swapFn (f : Nat → Complex) (i j : Nat) : Nat → Complex :=
  fun k => if k = i then f j else if k = j then f i else f k

/-- The body of `applyCNOT`'s loop over `state`: when the control bit of
`state` is 1, swap `newAmplitudes[state]` with
`newAmplitudes[state ^ (1 << targetPos)]`. -/
def applyCNOTStep (n control target : Nat) (acc : Nat → Complex) (state : Nat) :
    Nat → Complex :=
  let controlBit := (state >>> (n - 1 - control)) &&& 1
  if controlBit = 1 then
    swapFn acc state (state ^^^ (1 <<< (n - 1 - target)))
  else
    acc

/-- Embedding of `applyCNOT` at the amplitude-array level: copy the array
(`[...this.amplitudes]`), then run the per-index swap pass over every state. -/
def applyCNOTList (n control target : Nat) (amps : List Complex) : List Complex :=
  let size := amps.length
  let init := fun i => amps.getD i Complex.zero
  let final := (List.range size).foldl (applyCNOTStep n control target) init
  (List.range size).map final

/-- Embedding of `QuantumState.applyCNOT`: returns a new state. -/
def QuantumState.applyCNOT (st : QuantumState) (control target : Nat) : QuantumState :=
  ⟨st.numQubits, applyCNOTList st.numQubits control target st.amplitudes⟩

/-- Embedding of `QuantumGates.X`. -/
def QuantumGates.X : Gate :=
  [[⟨0, 0⟩, ⟨1, 0⟩],
   [⟨1, 0⟩, ⟨0, 0⟩]]

/-- Embedding of `QuantumGates.Y`. -/
def QuantumGates.Y : Gate :=
  [[⟨0, 0⟩, ⟨0, -1⟩],
   [⟨0, 1⟩, ⟨0, 0⟩]]

/-- Embedding of `QuantumGates.Z`. -/
def QuantumGates.Z : Gate :=
  [[⟨1, 0⟩, ⟨0, 0⟩],
   [⟨0, 0⟩, ⟨-1, 0⟩]]

/-- Embedding of `QuantumGates.H`. -/
noncomputable def QuantumGates.H : Gate :=
  [[⟨1 / Real.sqrt 2, 0⟩, ⟨1 / Real.sqrt 2, 0⟩],
   [⟨1 / Real.sqrt 2, 0⟩, ⟨-(1 / Real.sqrt 2), 0⟩]]

/-- Embedding of `QuantumGates.S`. -/
def QuantumGates.S : Gate :=
  [[⟨1, 0⟩, ⟨0, 0⟩],
   [⟨0, 0⟩, ⟨0, 1⟩]]

/-- Embedding of `QuantumGates.T`. -/
noncomputable def QuantumGates.T : Gate :=
  [[⟨1, 0⟩, ⟨0, 0⟩],
   [⟨0, 0⟩, ⟨1 / Real.sqrt 2, 1 / Real.sqrt 2⟩]]

/-- Embedding of `QuantumGates.RX`. -/
noncomputable def QuantumGates.RX (theta : ℝ) : Gate :=
  [[⟨Real.cos (theta / 2), 0⟩, ⟨0, -Real.sin (theta / 2)⟩],
   [⟨0, -Real.sin (theta / 2)⟩, ⟨Real.cos (theta / 2), 0⟩]]

/-- Embedding of `QuantumGates.RY`. -/
noncomputable def QuantumGates.RY (theta : ℝ) : Gate :=
  [[⟨Real.cos (theta / 2), 0⟩, ⟨-Real.sin (theta / 2), 0⟩],
   [⟨Real.sin (theta / 2), 0⟩, ⟨Real.cos (theta / 2), 0⟩]]

/-- Embedding of `QuantumGates.RZ`. -/
noncomputable def QuantumGates.RZ (theta : ℝ) : Gate :=
  [[⟨Real.cos (theta / 2), -Real.sin (theta / 2)⟩, ⟨0, 0⟩],
   [⟨0, 0⟩, ⟨Real.cos (theta / 2), Real.sin (theta / 2)⟩]]

/-- The catalog of single-qubit unitary gates named by the spec (the
`QuantumGates` object, with the rotation constructors taking an angle). -/
inductive CatalogGate where
  | X
  | Y
  | Z
  | H
  | S
  | T
  | RX (theta : ℝ)
  | RY (theta : ℝ)
  | RZ (theta : ℝ)

/-- The matrix of a catalog gate. -/
noncomputable def CatalogGate.matrix : CatalogGate → Gate
  | .X => QuantumGates.X
  | .Y => QuantumGates.Y
  | .Z => QuantumGates.Z
  | .H => QuantumGates.H
  | .S => QuantumGates.S
  | .T => QuantumGates.T
  | .RX theta => QuantumGates.RX theta
  | .RY theta => QuantumGates.RY theta
  | .RZ theta => QuantumGates.RZ theta

/-- Embedding of the `QuantumGate` placement record of the UI layer. -/
structure QuantumGate where
  name : String
  symbol : String
  description : String
  category : String
  qubit : Nat
  step : Nat

/-- The comparator `(a, b) => a.step - b.step`: ascending step order. -/
def gateLe (a b : QuantumGate) : Bool :=
  decide (a.step ≤ b.step)

/-- Embedding of `[...gates].sort((a, b) => a.step - b.step)`. -/
def sortGates (gates : List QuantumGate) : List QuantumGate :=
  gates.mergeSort gateLe

/-- The `switch (gate.symbol)` of both executors: apply the library gate a
recognized symbol maps to; the `default` branch leaves the state unchanged. -/
noncomputable def applyPlacement (st : QuantumState) (g : QuantumGate) : QuantumState :=
  if g.symbol = "Pₓ" then st.applyGate QuantumGates.X g.qubit
  else if g.symbol = "Pᵧ" then st.applyGate QuantumGates.Y g.qubit
  else if g.symbol = "Pᵨ" then st.applyGate QuantumGates.Z g.qubit
  else if g.symbol = "H" then st.applyGate QuantumGates.H g.qubit
  else if g.symbol = "S" then st.applyGate QuantumGates.S g.qubit
  else st

/-- Embedding of `handleCircuitRun`: start from a fresh state, sort the
placements by step, and apply every one of them in order. -/
noncomputable def handleCircuitRun (numQubits : Nat) (gates : List QuantumGate) :
    QuantumState :=
  (sortGates gates).foldl applyPlacement (QuantumState.construct numQubits none)

/-- The loop of `updateSteppedState`: walk the sorted placements, stopping at
the first placement whose step reaches the cutoff (`if (gate.step >= step)
break;`), applying each placement before that point. -/
noncomputable def applyUpTo (cutoff : Nat) : QuantumState → List QuantumGate → QuantumState
  | st, [] => st
  | st, g :: rest =>
    if cutoff ≤ g.step then st else applyUpTo cutoff (applyPlacement st g) rest

/-- Embedding of `updateSteppedState`: a stepped run up to an exclusive cutoff. -/
noncomputable def updateSteppedState (numQubits : Nat) (cutoff : Nat)
    (gates : List QuantumGate) : QuantumState :=
  applyUpTo cutoff (QuantumState.construct numQubits none) (sortGates gates)

/-- The circuit depth displayed by `QuantumCircuitBuilder`:
`Math.max(...gates.map(g => g.step), 0) + 1`. -/
def builderDepth (gates : List QuantumGate) : Nat :=
  (gates.map (fun g => g.step)).foldl max 0 + 1

/-- The `totalSteps` field written by `handleExport`:
`Math.max(...gates.map(g => g.step), 0) + 1`. -/
def exportTotalSteps (gates : List QuantumGate) : Nat :=
  (gates.map (fun g => g.step)).foldl max 0 + 1

/-- The `maxDepth` computed by `QuantumValidation.validateCircuit`:
`Math.max(...gates.map(g => g.step), 0) + 1`. -/
def validatorMaxDepth (gates : List QuantumGate) : Nat :=
  (gates.map (fun g => g.step)).foldl max 0 + 1

/-- Modelled from the spec: the `depth()` quantity of §4.4, "max(step over all
placements) + 1, or 0 if empty"; stated here for comparison with the three
depth computations in the code. -/
def specDepth (gates : List QuantumGate) : Nat :=
  match gates with
  | [] => 0
  | _ => (gates.map (fun g => g.step)).foldl max 0 + 1

/-- A heap of amplitude arrays, used to make mutation observable: object
identities are cells, and a `QuantumState` instance holds a reference to the
cell its `amplitudes` array lives in. -/
abbrev Heap := Nat → List Complex

/-- A `QuantumState` object as a reference into the heap. -/
structure StateRef where
  numQubits : Nat
  ref : Nat

/-- Writing one heap cell. -/
def heapWrite (h : Heap) (i : Nat) (v : List Complex) : Heap :=
  fun j => if j = i then v else h j

/-- `getAmplitudes` in the heap model: read the receiver's array. -/
def getAmplitudesRef (h : Heap) (st : StateRef) : List Complex :=
  h st.ref

/-- `applyGate` in the heap model: the new amplitude array is computed from
the receiver's array and stored in a fresh cell (`next`), which the returned
instance references; the receiver's cell is not written. -/
noncomputable def applyGateRef (h : Heap) (next : Nat) (st : StateRef) (g : Gate)
    (q : Nat) : Heap × Nat × StateRef :=
  (heapWrite h next (applyGateList st.numQubits g q (h st.ref)), next + 1,
   ⟨st.numQubits, next⟩)

/-- `applyCNOT` in the heap model: the copy `[...this.amplitudes]` is a fresh
cell (`next`); the swap pass runs on that fresh cell only. -/
def applyCNOTRef (h : Heap) (next : Nat) (st : StateRef) (control target : Nat) :
    Heap × Nat × StateRef :=
  (heapWrite h next (applyCNOTList st.numQubits control target (h st.ref)), next + 1,
   ⟨st.numQubits, next⟩)

/-! Bit-manipulation facts about the index arithmetic used by the engine. -/

theorem mask_eq (p : Nat) : 1 <<< p = 2 ^ p := by
  rw [Nat.shiftLeft_eq, one_mul]

theorem bitIdx_eq (k p : Nat) : (k >>> p) &&& 1 = if k.testBit p then 1 else 0 := by
  rw [Nat.and_one_is_mod, Nat.shiftRight_eq_div_pow, Nat.testBit_to_div_mod]
  rcases Nat.mod_two_eq_zero_or_one (k / 2 ^ p) with h | h <;> simp [h]

theorem testBit_mask (p i : Nat) : (1 <<< p).testBit i = decide (p = i) := by
  rw [mask_eq]; exact Nat.testBit_two_pow

theorem ldiff_mask_testBit (s p i : Nat) :
    (Nat.ldiff s (1 <<< p)).testBit i = (s.testBit i && !decide (p = i)) := by
  rw [Nat.testBit_ldiff, testBit_mask]

theorem lor_mask_testBit (s p i : Nat) :
    (s ||| 1 <<< p).testBit i = (s.testBit i || decide (p = i)) := by
  rw [Nat.testBit_or, testBit_mask]

theorem xor_mask_testBit (s p i : Nat) :
    (s ^^^ 1 <<< p).testBit i = (s.testBit i ^^ decide (p = i)) := by
  rw [Nat.testBit_xor, testBit_mask]

theorem ldiff_mask_self {t p : Nat} (h : t.testBit p = false) :
    Nat.ldiff t (1 <<< p) = t := by
  apply Nat.eq_of_testBit_eq
  intro i
  rw [ldiff_mask_testBit]
  by_cases hip : p = i
  · subst hip; simp [h]
  · simp [hip]

theorem lor_mask_self {t p : Nat} (h : t.testBit p = true) : t ||| 1 <<< p = t := by
  apply Nat.eq_of_testBit_eq
  intro i
  rw [lor_mask_testBit]
  by_cases hip : p = i
  · subst hip; simp [h]
  · simp [hip]

theorem ldiff_mask_lor (t p : Nat) :
    Nat.ldiff (t ||| 1 <<< p) (1 <<< p) = Nat.ldiff t (1 <<< p) := by
  apply Nat.eq_of_testBit_eq
  intro i
  rw [ldiff_mask_testBit, ldiff_mask_testBit, lor_mask_testBit]
  by_cases hip : p = i <;> simp [hip]

theorem lor_mask_ldiff (t p : Nat) :
    Nat.ldiff t (1 <<< p) ||| 1 <<< p = t ||| 1 <<< p := by
  apply Nat.eq_of_testBit_eq
  intro i
  rw [lor_mask_testBit, lor_mask_testBit, ldiff_mask_testBit]
  by_cases hip : p = i <;> simp [hip]

theorem ldiff_mask_ldiff (t p : Nat) :
    Nat.ldiff (Nat.ldiff t (1 <<< p)) (1 <<< p) = Nat.ldiff t (1 <<< p) := by
  apply ldiff_mask_self
  rw [ldiff_mask_testBit]
  simp

theorem ldiff_mask_testBit_self (t p : Nat) :
    (Nat.ldiff t (1 <<< p)).testBit p = false := by
  rw [ldiff_mask_testBit]; simp

theorem lor_mask_testBit_self (t p : Nat) : (t ||| 1 <<< p).testBit p = true := by
  rw [lor_mask_testBit]; simp

theorem xor_mask_xor_mask (k p : Nat) : k ^^^ 1 <<< p ^^^ 1 <<< p = k := by
  rw [Nat.xor_assoc, Nat.xor_self, Nat.xor_zero]

theorem xor_mask_ne (k p : Nat) : k ^^^ 1 <<< p ≠ k := by
  intro h
  have hb := congrArg (fun x => x.testBit p) h
  simp only [xor_mask_testBit] at hb
  simp at hb

theorem testBit_high_false {x n i : Nat} (hx : x < 2 ^ n) (hi : n ≤ i) :
    x.testBit i = false :=
  Nat.testBit_lt_two_pow (lt_of_lt_of_le hx (Nat.pow_le_pow_right (by norm_num) hi))

theorem mask_lt {p n : Nat} (hp : p < n) : 1 <<< p < 2 ^ n := by
  rw [mask_eq]
  exact Nat.pow_lt_pow_right (by norm_num) hp

theorem ldiff_mask_lt {t n : Nat} (p : Nat) (ht : t < 2 ^ n) (hp : p < n) :
    Nat.ldiff t (1 <<< p) < 2 ^ n := by
  show Nat.bitwise (fun a b => a && !b) t (1 <<< p) < 2 ^ n
  exact Nat.bitwise_lt_two_pow ht (mask_lt hp)

theorem lor_mask_lt {t n : Nat} (p : Nat) (ht : t < 2 ^ n) (hp : p < n) :
    t ||| 1 <<< p < 2 ^ n :=
  Nat.or_lt_two_pow ht (mask_lt hp)

theorem xor_mask_lt {t n : Nat} (p : Nat) (ht : t < 2 ^ n) (hp : p < n) :
    t ^^^ 1 <<< p < 2 ^ n :=
  Nat.xor_lt_two_pow ht (mask_lt hp)

theorem lor_mask_ne_self {t p : Nat} (h : t.testBit p = false) : t ≠ t ||| 1 <<< p := by
  intro he
  have hb := congrArg (fun x => x.testBit p) he
  simp only [lor_mask_testBit] at hb
  simp [h] at hb

/-- The positions `numQubits - 1 - q` of two distinct in-range qubits differ. -/
theorem pos_ne_of_qubit_ne {n c t : Nat} (hc : c < n) (ht : t < n) (hne : c ≠ t) :
    n - 1 - c ≠ n - 1 - t := by
  omega

/-! The per-index swap pass of `applyCNOT` is an involution-squared: walked
over every index in ascending order, each unordered pair of partner indices
(which, for distinct control and target qubits, share the control bit) is
swapped once per member, hence twice in total. -/

theorem xor_mask_testBit_ne {k p q : Nat} (h : p ≠ q) :
    (k ^^^ 1 <<< p).testBit q = k.testBit q := by
  rw [xor_mask_testBit]
  simp [h]

theorem cnot_step_bit0 {n c t : Nat} {acc : Nat → Complex} {m : Nat}
    (hm : m.testBit (n - 1 - c) = false) :
    applyCNOTStep n c t acc m = acc := by
  unfold applyCNOTStep
  rw [bitIdx_eq, hm]
  simp

theorem cnot_step_bit1 {n c t : Nat} {acc : Nat → Complex} {m : Nat}
    (hm : m.testBit (n - 1 - c) = true) :
    applyCNOTStep n c t acc m = swapFn acc m (m ^^^ 1 <<< (n - 1 - t)) := by
  unfold applyCNOTStep
  rw [bitIdx_eq, hm]
  simp

/-- Invariant of the swap pass: after the first `m` iterations, an index `k`
holds the partner amplitude exactly when its control bit is 1 and exactly one
member of its pair `{k, k ^ targetMask}` has been visited. -/
theorem cnot_fold_invariant {n c t : Nat} (hc : c < n) (ht : t < n) (hne : c ≠ t)
    (A : Nat → Complex) :
    ∀ m k, (List.range m).foldl (applyCNOTStep n c t) A k =
      if k.testBit (n - 1 - c) = true ∧
          ((k < m ∧ ¬ k ^^^ 1 <<< (n - 1 - t) < m) ∨
           (k ^^^ 1 <<< (n - 1 - t) < m ∧ ¬ k < m)) then
        A (k ^^^ 1 <<< (n - 1 - t))
      else A k := by
  have hpp : n - 1 - t ≠ n - 1 - c := pos_ne_of_qubit_ne ht hc (fun h => hne h.symm)
  intro m
  induction m with
  | zero =>
    intro k
    simp
  | succ m ih =>
    intro k
    rw [List.range_succ, List.foldl_append, List.foldl_cons, List.foldl_nil]
    by_cases hm : m.testBit (n - 1 - c) = true
    · rw [cnot_step_bit1 hm]
      by_cases hk : k = m
      · subst hk
        have hxne : k ^^^ 1 <<< (n - 1 - t) ≠ k := xor_mask_ne k (n - 1 - t)
        have hxb : (k ^^^ 1 <<< (n - 1 - t)).testBit (n - 1 - c) = true := by
          rw [xor_mask_testBit_ne hpp]; exact hm
        simp only [swapFn, if_pos rfl]
        rw [ih]
        simp only [xor_mask_xor_mask, hxb, hm, true_and]
        split_ifs with h1 h2 h2 <;> first | rfl | omega
      · by_cases hkx : k = m ^^^ 1 <<< (n - 1 - t)
        · subst hkx
          have hmxne : m ^^^ 1 <<< (n - 1 - t) ≠ m := xor_mask_ne m (n - 1 - t)
          have hmb : (m ^^^ 1 <<< (n - 1 - t)).testBit (n - 1 - c) = true := by
            rw [xor_mask_testBit_ne hpp]; exact hm
          simp only [swapFn, if_neg hk, if_pos rfl]
          rw [ih]
          simp only [xor_mask_xor_mask, hmb, hm, true_and]
          split_ifs with h1 h2 h2 <;> first | rfl | omega
        · simp only [swapFn, if_neg hk, if_neg hkx]
          rw [ih]
          have hxm : k ^^^ 1 <<< (n - 1 - t) ≠ m := by
            intro h
            exact hkx (by rw [← h, xor_mask_xor_mask])
          by_cases hkb : k.testBit (n - 1 - c) = true
          · simp only [hkb, true_and]
            split_ifs with h1 h2 h2 <;> first | rfl | omega
          · rw [if_neg (fun hcond => hkb hcond.1), if_neg (fun hcond => hkb hcond.1)]
    · have hm0 : m.testBit (n - 1 - c) = false := by
        cases h : m.testBit (n - 1 - c)
        · rfl
        · exact absurd h hm
      rw [cnot_step_bit0 hm0, ih]
      by_cases hkb : k.testBit (n - 1 - c) = true
      · have hk : k ≠ m := by
          intro h; rw [h, hm0] at hkb; cases hkb
        have hxm : k ^^^ 1 <<< (n - 1 - t) ≠ m := by
          intro h
          have hb2 : (k ^^^ 1 <<< (n - 1 - t)).testBit (n - 1 - c) = true := by
            rw [xor_mask_testBit_ne hpp]; exact hkb
          rw [h, hm0] at hb2; cases hb2
        simp only [hkb, true_and]
        split_ifs with h1 h2 h2 <;> first | rfl | omega
      · rw [if_neg (fun hcond => hkb hcond.1), if_neg (fun hcond => hkb hcond.1)]

/-- For distinct in-range control and target qubits the whole swap pass is the
identity on a well-formed amplitude array. -/
theorem applyCNOTList_id {n c t : Nat} (hc : c < n) (ht : t < n) (hne : c ≠ t)
    (amps : List Complex) (hlen : amps.length = 2 ^ n) :
    applyCNOTList n c t amps = amps := by
  unfold applyCNOTList
  simp only []
  apply List.ext_getElem
  · simp [hlen]
  · intro i h1 h2
    simp only [List.getElem_map, List.getElem_range, List.length_map, List.length_range] at h1 ⊢
    rw [cnot_fold_invariant hc ht hne]
    have hi : i < 2 ^ n := by rw [← hlen]; exact h1
    have hpt : n - 1 - t < n := by omega
    have hxor : i ^^^ 1 <<< (n - 1 - t) < 2 ^ n := xor_mask_lt _ hi hpt
    rw [if_neg (by
      intro hcond
      rcases hcond.2 with ⟨_, h2x⟩ | ⟨_, h2x⟩
      · exact h2x (by omega)
      · exact h2x (by omega))]
    exact List.getD_eq_getElem amps Complex.zero h1

/-- `applyCNOT` with distinct in-range qubits returns a state with the same
amplitude vector. -/
theorem applyCNOT_id {st : QuantumState} {c t : Nat} (hc : c < st.numQubits)
    (ht : t < st.numQubits) (hne : c ≠ t)
    (hlen : st.amplitudes.length = 2 ^ st.numQubits) :
    (st.applyCNOT c t).amplitudes = st.amplitudes :=
  applyCNOTList_id hc ht hne st.amplitudes hlen

/-! Characterization of `applyGate`: the accumulation loop computes, at each
output index, the standard two-term tensor contraction of the 2×2 gate with
the input amplitudes. -/

/-- The contribution the loop iteration for input index `s` adds at output
index `u`: one term per unrolled `newQubitBit`. -/
def gateContrib (n : Nat) (g : Gate) (q : Nat) (amps : Nat → Complex) (s u : Nat) :
    Complex :=
  (if u = Nat.ldiff s (1 <<< (n - 1 - q)) ||| 0 <<< (n - 1 - q) then
    (amps s).multiply (entry g 0 ((s >>> (n - 1 - q)) &&& 1)) else 0) +
  (if u = Nat.ldiff s (1 <<< (n - 1 - q)) ||| 1 <<< (n - 1 - q) then
    (amps s).multiply (entry g 1 ((s >>> (n - 1 - q)) &&& 1)) else 0)

theorem applyGateStep_eval (n : Nat) (g : Gate) (q : Nat) (amps acc : Nat → Complex)
    (s u : Nat) :
    applyGateStep n g q amps acc s u = acc u + gateContrib n g q amps s u := by
  have hne : Nat.ldiff s (1 <<< (n - 1 - q))
      ≠ Nat.ldiff s (1 <<< (n - 1 - q)) ||| 1 <<< (n - 1 - q) :=
    lor_mask_ne_self (ldiff_mask_testBit_self s (n - 1 - q))
  unfold applyGateStep gateContrib upd
  simp only [Nat.zero_shiftLeft, Nat.or_zero]
  by_cases hu0 : u = Nat.ldiff s (1 <<< (n - 1 - q))
  · subst hu0
    simp [if_neg hne, Complex.add_def]
  · by_cases hu1 : u = Nat.ldiff s (1 <<< (n - 1 - q)) ||| 1 <<< (n - 1 - q)
    · subst hu1
      simp [if_neg (Ne.symm hne), Complex.add_def]
    · simp [if_neg hu0, if_neg hu1, Complex.add_def]

theorem applyGate_fold_eval (n : Nat) (g : Gate) (q : Nat) (amps : Nat → Complex) :
    ∀ m u, (List.range m).foldl (applyGateStep n g q amps) (fun _ => Complex.zero) u
      = Finset.sum (Finset.range m) (fun s => gateContrib n g q amps s u) := by
  intro m
  induction m with
  | zero =>
    intro u
    simp [Complex.zero_def]
  | succ m ih =>
    intro u
    rw [List.range_succ, List.foldl_append, List.foldl_cons, List.foldl_nil,
      applyGateStep_eval, ih, Finset.sum_range_succ]

/-- Classification of the solutions of `u = otherBits(s)` when `u` has the
target bit clear: `s` is `u` with the bit either cleared or set. -/
theorem ldiff_eq_class {s u p : Nat} (hu : u.testBit p = false) :
    u = Nat.ldiff s (1 <<< p) ↔ s = u ∨ s = u ||| 1 <<< p := by
  constructor
  · intro h
    by_cases hs : s.testBit p = true
    · right
      apply Nat.eq_of_testBit_eq
      intro i
      rw [lor_mask_testBit]
      by_cases hip : p = i
      · subst hip; simp [hs]
      · have hbi := congrArg (fun x => x.testBit i) h
        simp only [ldiff_mask_testBit, decide_eq_false (show ¬ p = i from hip),
          Bool.not_false, Bool.and_true] at hbi
        simp [decide_eq_false (show ¬ p = i from hip), hbi]
    · left
      apply Nat.eq_of_testBit_eq
      intro i
      by_cases hip : p = i
      · subst hip
        simp only [Bool.not_eq_true] at hs
        rw [hs, hu]
      · have hbi := congrArg (fun x => x.testBit i) h
        simp only [ldiff_mask_testBit,
          decide_eq_false (show ¬ p = i from hip), Bool.not_false,
          Bool.and_true] at hbi
        exact hbi.symm
  · rintro (rfl | rfl)
    · exact (ldiff_mask_self hu).symm
    · rw [ldiff_mask_lor]
      exact (ldiff_mask_self hu).symm

/-- Classification of the solutions of `u = otherBits(s) | mask` when `u` has
the target bit set. -/
theorem lor_eq_class {s u p : Nat} (hu : u.testBit p = true) :
    u = Nat.ldiff s (1 <<< p) ||| 1 <<< p ↔ s = Nat.ldiff u (1 <<< p) ∨ s = u := by
  constructor
  · intro h
    by_cases hs : s.testBit p = true
    · right
      apply Nat.eq_of_testBit_eq
      intro i
      by_cases hip : p = i
      · subst hip; rw [hs, hu]
      · have hbi := congrArg (fun x => x.testBit i) h
        simp only [lor_mask_testBit, ldiff_mask_testBit,
          decide_eq_false (show ¬ p = i from hip), Bool.not_false,
          Bool.and_true, Bool.or_false] at hbi
        exact hbi.symm
    · left
      apply Nat.eq_of_testBit_eq
      intro i
      rw [ldiff_mask_testBit]
      by_cases hip : p = i
      · subst hip
        simp only [Bool.not_eq_true] at hs
        simp [hs]
      · have hbi := congrArg (fun x => x.testBit i) h
        simp only [lor_mask_testBit, ldiff_mask_testBit,
          decide_eq_false (show ¬ p = i from hip), Bool.not_false,
          Bool.and_true, Bool.or_false] at hbi
        simp only [decide_eq_false (show ¬ p = i from hip), Bool.not_false,
          Bool.and_true]
        exact hbi.symm
  · rintro (rfl | rfl)
    · rw [ldiff_mask_ldiff, lor_mask_ldiff]
      exact (lor_mask_self hu).symm
    · rw [lor_mask_ldiff]
      exact (lor_mask_self hu).symm

theorem ldiff_ne_of_testBit {u p : Nat} (hu : u.testBit p = true) :
    Nat.ldiff u (1 <<< p) ≠ u := by
  intro h
  have hb := congrArg (fun x => x.testBit p) h
  simp only [ldiff_mask_testBit_self] at hb
  rw [hu] at hb
  cases hb

/-- Closed form of the total contribution at output index `u`: the two-term
contraction `amps[rest] * gate[bit][0] + amps[rest | mask] * gate[bit][1]`. -/
theorem gateContrib_sum {n q : Nat} (hq : q < n) (g : Gate) (amps : Nat → Complex)
    {u : Nat} (hu : u < 2 ^ n) :
    Finset.sum (Finset.range (2 ^ n)) (fun s => gateContrib n g q amps s u)
      = (amps (Nat.ldiff u (1 <<< (n - 1 - q)))).multiply
          (entry g ((u >>> (n - 1 - q)) &&& 1) 0)
        + (amps (u ||| 1 <<< (n - 1 - q))).multiply
          (entry g ((u >>> (n - 1 - q)) &&& 1) 1) := by
  have hp : n - 1 - q < n := by omega
  unfold gateContrib
  simp only [Nat.zero_shiftLeft, Nat.or_zero]
  rw [Finset.sum_add_distrib]
  by_cases hub : u.testBit (n - 1 - q) = true
  · have h1 : Finset.sum (Finset.range (2 ^ n))
        (fun s => if u = Nat.ldiff s (1 <<< (n - 1 - q)) then
          (amps s).multiply (entry g 0 ((s >>> (n - 1 - q)) &&& 1)) else 0) = 0 := by
      apply Finset.sum_eq_zero
      intro s _
      rw [if_neg]
      intro h
      have hb := congrArg (fun x => x.testBit (n - 1 - q)) h
      simp only [ldiff_mask_testBit_self] at hb
      rw [hub] at hb
      cases hb
    have hsplit : ∀ s, (if u = Nat.ldiff s (1 <<< (n - 1 - q)) ||| 1 <<< (n - 1 - q) then
        (amps s).multiply (entry g 1 ((s >>> (n - 1 - q)) &&& 1)) else 0)
      = (if s = Nat.ldiff u (1 <<< (n - 1 - q)) then
          (amps s).multiply (entry g 1 ((s >>> (n - 1 - q)) &&& 1)) else 0)
        + (if s = u then
          (amps s).multiply (entry g 1 ((s >>> (n - 1 - q)) &&& 1)) else 0) := by
      intro s
      have hdist : Nat.ldiff u (1 <<< (n - 1 - q)) ≠ u := ldiff_ne_of_testBit hub
      by_cases hs1 : s = Nat.ldiff u (1 <<< (n - 1 - q))
      · have hne2 : ¬ s = u := by rw [hs1]; exact hdist
        rw [if_pos ((lor_eq_class hub).2 (Or.inl hs1)), if_pos hs1, if_neg hne2, add_zero]
      · by_cases hs2 : s = u
        · rw [if_pos ((lor_eq_class hub).2 (Or.inr hs2)), if_neg hs1, if_pos hs2, zero_add]
        · have hne3 : ¬ u = Nat.ldiff s (1 <<< (n - 1 - q)) ||| 1 <<< (n - 1 - q) := by
            intro h
            rcases (lor_eq_class hub).1 h with h | h
            · exact hs1 h
            · exact hs2 h
          rw [if_neg hne3, if_neg hs1, if_neg hs2, add_zero]
    rw [h1, zero_add, Finset.sum_congr rfl (fun s _ => hsplit s), Finset.sum_add_distrib,
      Finset.sum_ite_eq' (Finset.range (2 ^ n)) (Nat.ldiff u (1 <<< (n - 1 - q))),
      Finset.sum_ite_eq' (Finset.range (2 ^ n)) u,
      if_pos (Finset.mem_range.2 (ldiff_mask_lt _ hu hp)),
      if_pos (Finset.mem_range.2 hu)]
    have hbl : ((Nat.ldiff u (1 <<< (n - 1 - q))) >>> (n - 1 - q)) &&& 1 = 0 := by
      rw [bitIdx_eq, ldiff_mask_testBit_self]
      simp
    have hbu : (u >>> (n - 1 - q)) &&& 1 = 1 := by
      rw [bitIdx_eq, hub]
      simp
    rw [hbl, hbu, lor_mask_self hub]
  · have hub0 : u.testBit (n - 1 - q) = false := by
      cases h : u.testBit (n - 1 - q)
      · rfl
      · exact absurd h hub
    have h2 : Finset.sum (Finset.range (2 ^ n))
        (fun s => if u = Nat.ldiff s (1 <<< (n - 1 - q)) ||| 1 <<< (n - 1 - q) then
          (amps s).multiply (entry g 1 ((s >>> (n - 1 - q)) &&& 1)) else 0) = 0 := by
      apply Finset.sum_eq_zero
      intro s _
      rw [if_neg]
      intro h
      have hb := congrArg (fun x => x.testBit (n - 1 - q)) h
      simp only [lor_mask_testBit_self] at hb
      rw [hub0] at hb
      cases hb
    have hsplit : ∀ s, (if u = Nat.ldiff s (1 <<< (n - 1 - q)) then
        (amps s).multiply (entry g 0 ((s >>> (n - 1 - q)) &&& 1)) else 0)
      = (if s = u then
          (amps s).multiply (entry g 0 ((s >>> (n - 1 - q)) &&& 1)) else 0)
        + (if s = u ||| 1 <<< (n - 1 - q) then
          (amps s).multiply (entry g 0 ((s >>> (n - 1 - q)) &&& 1)) else 0) := by
      intro s
      have hdist : u ≠ u ||| 1 <<< (n - 1 - q) := lor_mask_ne_self hub0
      by_cases hs1 : s = u
      · have hne2 : ¬ s = u ||| 1 <<< (n - 1 - q) := by rw [hs1]; exact hdist
        rw [if_pos ((ldiff_eq_class hub0).2 (Or.inl hs1)), if_pos hs1, if_neg hne2, add_zero]
      · by_cases hs2 : s = u ||| 1 <<< (n - 1 - q)
        · rw [if_pos ((ldiff_eq_class hub0).2 (Or.inr hs2)), if_neg hs1, if_pos hs2, zero_add]
        · have hne3 : ¬ u = Nat.ldiff s (1 <<< (n - 1 - q)) := by
            intro h
            rcases (ldiff_eq_class hub0).1 h with h | h
            · exact hs1 h
            · exact hs2 h
          rw [if_neg hne3, if_neg hs1, if_neg hs2, add_zero]
    rw [h2, add_zero, Finset.sum_congr rfl (fun s _ => hsplit s), Finset.sum_add_distrib,
      Finset.sum_ite_eq' (Finset.range (2 ^ n)) u,
      Finset.sum_ite_eq' (Finset.range (2 ^ n)) (u ||| 1 <<< (n - 1 - q)),
      if_pos (Finset.mem_range.2 hu),
      if_pos (Finset.mem_range.2 (lor_mask_lt _ hu hp))]
    have hbu : (u >>> (n - 1 - q)) &&& 1 = 0 := by
      rw [bitIdx_eq, hub0]
      simp
    have hbl : ((u ||| 1 <<< (n - 1 - q)) >>> (n - 1 - q)) &&& 1 = 1 := by
      rw [bitIdx_eq, lor_mask_testBit_self]
      simp
    rw [hbu, hbl, ldiff_mask_self hub0]

theorem applyGateList_length (n : Nat) (g : Gate) (q : Nat) (amps : List Complex) :
    (applyGateList n g q amps).length = amps.length := by
  unfold applyGateList
  simp

/-- The closed form of `applyGate` at each output index below 2^n. -/
theorem applyGateList_closed {n q : Nat} (hq : q < n) (g : Gate) (amps : List Complex)
    (hlen : amps.length = 2 ^ n) {u : Nat} (hu : u < 2 ^ n) :
    (applyGateList n g q amps).getD u Complex.zero
      = (amps.getD (Nat.ldiff u (1 <<< (n - 1 - q))) Complex.zero).multiply
          (entry g ((u >>> (n - 1 - q)) &&& 1) 0)
        + (amps.getD (u ||| 1 <<< (n - 1 - q)) Complex.zero).multiply
          (entry g ((u >>> (n - 1 - q)) &&& 1) 1) := by
  have hu2 : u < (applyGateList n g q amps).length := by
    rw [applyGateList_length, hlen]
    exact hu
  rw [List.getD_eq_getElem _ _ hu2]
  unfold applyGateList
  simp only [List.getElem_map, List.getElem_range]
  rw [applyGate_fold_eval, hlen]
  exact gateContrib_sum hq g _ hu

/-- The closed form lifted to `QuantumState.applyGate`. -/
theorem applyGate_closed {st : QuantumState} {q : Nat} (hq : q < st.numQubits)
    (g : Gate) (hlen : st.amplitudes.length = 2 ^ st.numQubits) {u : Nat}
    (hu : u < 2 ^ st.numQubits) :
    (st.applyGate g q).amp u
      = (st.amp (Nat.ldiff u (1 <<< (st.numQubits - 1 - q)))).multiply
          (entry g ((u >>> (st.numQubits - 1 - q)) &&& 1) 0)
        + (st.amp (u ||| 1 <<< (st.numQubits - 1 - q))).multiply
          (entry g ((u >>> (st.numQubits - 1 - q)) &&& 1) 1) :=
  applyGateList_closed hq g st.amplitudes hlen hu

/-! Norm preservation: applying a column-orthonormal 2×2 gate anywhere in the
state keeps Σ|amplitude|² unchanged. -/

theorem Complex.add_real (a b : Complex) : (a + b).real = a.real + b.real := rfl

theorem Complex.add_imaginary (a b : Complex) :
    (a + b).imaginary = a.imaginary + b.imaginary := rfl

theorem Complex.multiply_real (a b : Complex) :
    (a.multiply b).real = a.real * b.real - a.imaginary * b.imaginary := rfl

theorem Complex.multiply_imaginary (a b : Complex) :
    (a.multiply b).imaginary = a.real * b.imaginary + a.imaginary * b.real := rfl

/-- Splitting a sum over all basis indices into pairs that differ exactly in
bit `p`. -/
theorem sum_pair_split {M : Type} [AddCommMonoid M] {n p : Nat} (hp : p < n)
    (F : Nat → M) :
    Finset.sum (Finset.range (2 ^ n)) F
      = Finset.sum ((Finset.range (2 ^ n)).filter (fun u => u.testBit p = false))
          (fun u => F u + F (u ||| 1 <<< p)) := by
  rw [← Finset.sum_filter_add_sum_filter_not (Finset.range (2 ^ n))
    (fun u => u.testBit p = false) F]
  rw [Finset.sum_add_distrib]
  congr 1
  refine Finset.sum_nbij' (fun u => Nat.ldiff u (1 <<< p))
    (fun v => v ||| 1 <<< p) ?_ ?_ ?_ ?_ ?_
  · intro a ha
    rw [Finset.mem_filter] at ha ⊢
    rw [Finset.mem_range] at ha ⊢
    exact ⟨ldiff_mask_lt _ ha.1 hp, ldiff_mask_testBit_self a p⟩
  · intro b hb
    rw [Finset.mem_filter] at hb ⊢
    rw [Finset.mem_range] at hb ⊢
    refine ⟨lor_mask_lt _ hb.1 hp, ?_⟩
    rw [lor_mask_testBit_self]
    simp
  · intro a ha
    rw [Finset.mem_filter] at ha
    have hab : a.testBit p = true := by
      cases h : a.testBit p
      · exact absurd h ha.2
      · rfl
    show Nat.ldiff a (1 <<< p) ||| 1 <<< p = a
    rw [lor_mask_ldiff]
    exact lor_mask_self hab
  · intro b hb
    rw [Finset.mem_filter] at hb
    show Nat.ldiff (b ||| 1 <<< p) (1 <<< p) = b
    rw [ldiff_mask_lor]
    exact ldiff_mask_self hb.2
  · intro a ha
    rw [Finset.mem_filter] at ha
    have hab : a.testBit p = true := by
      cases h : a.testBit p
      · exact absurd h ha.2
      · rfl
    show F a = F (Nat.ldiff a (1 <<< p) ||| 1 <<< p)
    rw [lor_mask_ldiff, lor_mask_self hab]

/-- Column-orthonormality of a 2×2 gate matrix (columns are orthonormal in ℂ²):
exactly what makes the embedded `applyGate` norm-preserving. -/
structure ColUnitary (g : Gate) : Prop where
  col0 : (entry g 0 0).normSq + (entry g 1 0).normSq = 1
  col1 : (entry g 0 1).normSq + (entry g 1 1).normSq = 1
  orthoRe : (entry g 0 0).real * (entry g 0 1).real
      + (entry g 0 0).imaginary * (entry g 0 1).imaginary
      + (entry g 1 0).real * (entry g 1 1).real
      + (entry g 1 0).imaginary * (entry g 1 1).imaginary = 0
  orthoIm : (entry g 0 0).real * (entry g 0 1).imaginary
      - (entry g 0 0).imaginary * (entry g 0 1).real
      + (entry g 1 0).real * (entry g 1 1).imaginary
      - (entry g 1 0).imaginary * (entry g 1 1).real = 0

/-- The two-output-cell norm identity for one amplitude pair. -/
theorem pair_normSq {g : Gate} (hu : ColUnitary g) (a0 a1 : Complex) :
    (a0.multiply (entry g 0 0) + a1.multiply (entry g 0 1)).normSq
      + (a0.multiply (entry g 1 0) + a1.multiply (entry g 1 1)).normSq
      = a0.normSq + a1.normSq := by
  obtain ⟨h1, h2, h3, h4⟩ := hu
  simp only [Complex.normSq] at h1 h2 ⊢
  simp only [Complex.add_real, Complex.add_imaginary, Complex.multiply_real,
    Complex.multiply_imaginary]
  linear_combination (a0.real * a0.real + a0.imaginary * a0.imaginary) * h1
    + (a1.real * a1.real + a1.imaginary * a1.imaginary) * h2
    + (2 * (a0.real * a1.real + a0.imaginary * a1.imaginary)) * h3
    - (2 * (a0.real * a1.imaginary - a0.imaginary * a1.real)) * h4

theorem sqrt_two_mul_self : Real.sqrt 2 * Real.sqrt 2 = 2 :=
  Real.mul_self_sqrt (by norm_num)

theorem sqrt_two_ne_zero : Real.sqrt 2 ≠ 0 := by
  intro h
  have := sqrt_two_mul_self
  rw [h] at this
  norm_num at this

theorem colUnitary_X : ColUnitary QuantumGates.X := by
  refine ⟨?_, ?_, ?_, ?_⟩ <;> simp [QuantumGates.X, entry, Complex.normSq]

theorem colUnitary_Y : ColUnitary QuantumGates.Y := by
  refine ⟨?_, ?_, ?_, ?_⟩ <;> simp [QuantumGates.Y, entry, Complex.normSq]

theorem colUnitary_Z : ColUnitary QuantumGates.Z := by
  refine ⟨?_, ?_, ?_, ?_⟩ <;> simp [QuantumGates.Z, entry, Complex.normSq]

theorem colUnitary_S : ColUnitary QuantumGates.S := by
  refine ⟨?_, ?_, ?_, ?_⟩ <;> simp [QuantumGates.S, entry, Complex.normSq]

theorem half_inv_sqrt_two : (1 : ℝ) / Real.sqrt 2 * (1 / Real.sqrt 2) = 1 / 2 := by
  rw [div_mul_div_comm, one_mul, sqrt_two_mul_self]

theorem colUnitary_H : ColUnitary QuantumGates.H := by
  refine ⟨?_, ?_, ?_, ?_⟩ <;>
    simp only [QuantumGates.H, entry, List.getD_cons_zero, List.getD_cons_succ,
      Complex.normSq] <;>
    first
    | ring1
    | linear_combination 2 * half_inv_sqrt_two

theorem colUnitary_T : ColUnitary QuantumGates.T := by
  refine ⟨?_, ?_, ?_, ?_⟩ <;>
    simp only [QuantumGates.T, entry, List.getD_cons_zero, List.getD_cons_succ,
      Complex.normSq] <;>
    first
    | ring1
    | linear_combination 2 * half_inv_sqrt_two

theorem colUnitary_RX (theta : ℝ) : ColUnitary (QuantumGates.RX theta) := by
  have hcs := Real.sin_sq_add_cos_sq (theta / 2)
  refine ⟨?_, ?_, ?_, ?_⟩ <;>
    simp only [QuantumGates.RX, entry, List.getD_cons_zero, List.getD_cons_succ,
      Complex.normSq] <;>
    first
    | ring1
    | linear_combination hcs

theorem colUnitary_RY (theta : ℝ) : ColUnitary (QuantumGates.RY theta) := by
  have hcs := Real.sin_sq_add_cos_sq (theta / 2)
  refine ⟨?_, ?_, ?_, ?_⟩ <;>
    simp only [QuantumGates.RY, entry, List.getD_cons_zero, List.getD_cons_succ,
      Complex.normSq] <;>
    first
    | ring1
    | linear_combination hcs

theorem colUnitary_RZ (theta : ℝ) : ColUnitary (QuantumGates.RZ theta) := by
  have hcs := Real.sin_sq_add_cos_sq (theta / 2)
  refine ⟨?_, ?_, ?_, ?_⟩ <;>
    simp only [QuantumGates.RZ, entry, List.getD_cons_zero, List.getD_cons_succ,
      Complex.normSq] <;>
    first
    | ring1
    | linear_combination hcs

/-- Every gate of the catalog is column-orthonormal. -/
theorem catalog_colUnitary : ∀ cg : CatalogGate, ColUnitary cg.matrix
  | .X => colUnitary_X
  | .Y => colUnitary_Y
  | .Z => colUnitary_Z
  | .H => colUnitary_H
  | .S => colUnitary_S
  | .T => colUnitary_T
  | .RX theta => colUnitary_RX theta
  | .RY theta => colUnitary_RY theta
  | .RZ theta => colUnitary_RZ theta

/-- Σ|amplitude_i|², the total probability accumulated by the display layer
(`probabilities.reduce((sum, p) => sum + p, 0)` over `amp.magnitude() ** 2`). -/
noncomputable def totalProbability (st : QuantumState) : ℝ :=
  Finset.sum (Finset.range st.amplitudes.length) (fun i => (st.amp i).magnitude ^ 2)

theorem magnitude_sq (a : Complex) : a.magnitude ^ 2 = a.normSq := by
  unfold Complex.magnitude Complex.normSq
  exact Real.sq_sqrt (add_nonneg (mul_self_nonneg _) (mul_self_nonneg _))

theorem applyGate_length (st : QuantumState) (g : Gate) (q : Nat) :
    (st.applyGate g q).amplitudes.length = st.amplitudes.length :=
  applyGateList_length _ _ _ _

theorem applyGate_numQubits (st : QuantumState) (g : Gate) (q : Nat) :
    (st.applyGate g q).numQubits = st.numQubits := rfl

/-- A column-orthonormal gate application preserves Σ|amplitude|² exactly
(over the idealized reals). -/
theorem applyGate_normSq {st : QuantumState} {q : Nat} (hq : q < st.numQubits)
    {g : Gate} (hu : ColUnitary g) (hlen : st.amplitudes.length = 2 ^ st.numQubits) :
    totalProbability (st.applyGate g q) = totalProbability st := by
  have hp : st.numQubits - 1 - q < st.numQubits := by omega
  unfold totalProbability
  rw [applyGate_length, hlen]
  rw [sum_pair_split hp, sum_pair_split hp]
  apply Finset.sum_congr rfl
  intro u hu2
  rw [Finset.mem_filter, Finset.mem_range] at hu2
  obtain ⟨huln, hub⟩ := hu2
  have hum : u ||| 1 <<< (st.numQubits - 1 - q) < 2 ^ st.numQubits :=
    lor_mask_lt _ huln hp
  have hld : Nat.ldiff u (1 <<< (st.numQubits - 1 - q)) = u := ldiff_mask_self hub
  have hbu : (u >>> (st.numQubits - 1 - q)) &&& 1 = 0 := by
    rw [bitIdx_eq, hub]
    simp
  have hbmask : ((u ||| 1 <<< (st.numQubits - 1 - q)) >>> (st.numQubits - 1 - q)) &&& 1
      = 1 := by
    rw [bitIdx_eq, lor_mask_testBit_self]
    simp
  have hldm : Nat.ldiff (u ||| 1 <<< (st.numQubits - 1 - q))
      (1 <<< (st.numQubits - 1 - q)) = u := by
    rw [ldiff_mask_lor]
    exact hld
  have hmm : (u ||| 1 <<< (st.numQubits - 1 - q)) ||| 1 <<< (st.numQubits - 1 - q)
      = u ||| 1 <<< (st.numQubits - 1 - q) :=
    lor_mask_self (lor_mask_testBit_self u _)
  simp only [magnitude_sq]
  rw [applyGate_closed hq g hlen huln, applyGate_closed hq g hlen hum]
  rw [hld, hbu, hbmask, hldm, hmm]
  exact pair_normSq hu (st.amp u) (st.amp (u ||| 1 <<< (st.numQubits - 1 - q)))

theorem construct_none_length (n : Nat) :
    (QuantumState.construct n none).amplitudes.length = 2 ^ n := by
  unfold QuantumState.construct
  simp

theorem construct_none_numQubits (n : Nat) :
    (QuantumState.construct n none).numQubits = n := rfl

theorem construct_none_amp {n i : Nat} (hi : i < 2 ^ n) :
    (QuantumState.construct n none).amp i = ⟨if i = 0 then 1 else 0, 0⟩ := by
  unfold QuantumState.construct QuantumState.amp
  simp only []
  rw [List.getD_eq_getElem _ _ (by simpa using hi)]
  simp

/-- The fresh |00...0⟩ state is normalized. -/
theorem construct_none_totalProbability (n : Nat) :
    totalProbability (QuantumState.construct n none) = 1 := by
  unfold totalProbability
  rw [construct_none_length]
  have hcongr : ∀ i ∈ Finset.range (2 ^ n),
      ((QuantumState.construct n none).amp i).magnitude ^ 2
        = if i = 0 then (1 : ℝ) else 0 := by
    intro i hi
    rw [magnitude_sq, construct_none_amp (Finset.mem_range.1 hi)]
    by_cases h : i = 0 <;> simp [h, Complex.normSq]
  rw [Finset.sum_congr rfl hcongr,
    Finset.sum_ite_eq' (Finset.range (2 ^ n)) 0 (fun _ => (1 : ℝ)),
    if_pos (Finset.mem_range.2 (Nat.pos_pow_of_pos n (by norm_num)))]

/-- A sequence of catalog-gate applications starting from the fresh n-qubit
zero state, the form quantified over by the spec's normalization invariant. -/
noncomputable def runGates (n : Nat) (ops : List (CatalogGate × Nat)) : QuantumState :=
  ops.foldl (fun acc p => acc.applyGate p.1.matrix p.2) (QuantumState.construct n none)

theorem runGates_aux (n : Nat) :
    ∀ (ops : List (CatalogGate × Nat)), (∀ p ∈ ops, p.2 < n) →
    ∀ st : QuantumState, st.numQubits = n → st.amplitudes.length = 2 ^ n →
      totalProbability st = 1 →
      (ops.foldl (fun acc p => acc.applyGate p.1.matrix p.2) st).numQubits = n ∧
      (ops.foldl (fun acc p => acc.applyGate p.1.matrix p.2) st).amplitudes.length
        = 2 ^ n ∧
      totalProbability (ops.foldl (fun acc p => acc.applyGate p.1.matrix p.2) st)
        = 1 := by
  intro ops
  induction ops with
  | nil =>
    intro _ st h1 h2 h3
    exact ⟨h1, h2, h3⟩
  | cons p rest ih =>
    intro hq st h1 h2 h3
    rw [List.foldl_cons]
    apply ih (fun x hx => hq x (List.mem_cons_of_mem p hx))
    · rw [applyGate_numQubits]
      exact h1
    · rw [applyGate_length]
      rw [h2]
    · rw [applyGate_normSq (by rw [h1]; exact hq p (List.mem_cons_self p rest))
        (catalog_colUnitary p.1) (by rw [h1]; exact h2)]
      exact h3

/-- Norm invariance of any in-range catalog gate sequence from the zero state. -/
theorem runGates_totalProbability {n : Nat} (ops : List (CatalogGate × Nat))
    (hq : ∀ p ∈ ops, p.2 < n) :
    totalProbability (runGates n ops) = 1 :=
  (runGates_aux n ops hq _ (construct_none_numQubits n) (construct_none_length n)
    (construct_none_totalProbability n)).2.2

/-! H is self-inverse: applying the embedded Hadamard twice to the same qubit
reproduces every amplitude exactly (over the idealized reals). -/

theorem entry_H_00 : entry QuantumGates.H 0 0 = ⟨1 / Real.sqrt 2, 0⟩ := rfl

theorem entry_H_01 : entry QuantumGates.H 0 1 = ⟨1 / Real.sqrt 2, 0⟩ := rfl

theorem entry_H_10 : entry QuantumGates.H 1 0 = ⟨1 / Real.sqrt 2, 0⟩ := rfl

theorem entry_H_11 : entry QuantumGates.H 1 1 = ⟨-(1 / Real.sqrt 2), 0⟩ := rfl

theorem hh_algebra0 (a0 a1 : Complex) :
    ((a0.multiply ⟨1 / Real.sqrt 2, 0⟩ + a1.multiply ⟨1 / Real.sqrt 2, 0⟩).multiply
        ⟨1 / Real.sqrt 2, 0⟩)
      + ((a0.multiply ⟨1 / Real.sqrt 2, 0⟩
          + a1.multiply ⟨-(1 / Real.sqrt 2), 0⟩).multiply ⟨1 / Real.sqrt 2, 0⟩)
      = a0 := by
  apply Complex.ext
  · simp only [Complex.add_real, Complex.add_imaginary, Complex.multiply_real,
      Complex.multiply_imaginary]
    linear_combination (2 * a0.real) * half_inv_sqrt_two
  · simp only [Complex.add_real, Complex.add_imaginary, Complex.multiply_real,
      Complex.multiply_imaginary]
    linear_combination (2 * a0.imaginary) * half_inv_sqrt_two

theorem hh_algebra1 (a0 a1 : Complex) :
    ((a0.multiply ⟨1 / Real.sqrt 2, 0⟩ + a1.multiply ⟨1 / Real.sqrt 2, 0⟩).multiply
        ⟨1 / Real.sqrt 2, 0⟩)
      + ((a0.multiply ⟨1 / Real.sqrt 2, 0⟩
          + a1.multiply ⟨-(1 / Real.sqrt 2), 0⟩).multiply ⟨-(1 / Real.sqrt 2), 0⟩)
      = a1 := by
  apply Complex.ext
  · simp only [Complex.add_real, Complex.add_imaginary, Complex.multiply_real,
      Complex.multiply_imaginary]
    linear_combination (2 * a1.real) * half_inv_sqrt_two
  · simp only [Complex.add_real, Complex.add_imaginary, Complex.multiply_real,
      Complex.multiply_imaginary]
    linear_combination (2 * a1.imaginary) * half_inv_sqrt_two

/-- Applying H twice to the same in-range qubit reproduces every amplitude. -/
theorem applyGate_H_H_amp {st : QuantumState} {q : Nat} (hq : q < st.numQubits)
    (hlen : st.amplitudes.length = 2 ^ st.numQubits) {u : Nat}
    (hu : u < 2 ^ st.numQubits) :
    ((st.applyGate QuantumGates.H q).applyGate QuantumGates.H q).amp u = st.amp u := by
  have hp : st.numQubits - 1 - q < st.numQubits := by omega
  have hldlt : Nat.ldiff u (1 <<< (st.numQubits - 1 - q)) < 2 ^ st.numQubits :=
    ldiff_mask_lt _ hu hp
  have hormlt : u ||| 1 <<< (st.numQubits - 1 - q) < 2 ^ st.numQubits :=
    lor_mask_lt _ hu hp
  have hlen2 : (st.applyGate QuantumGates.H q).amplitudes.length
      = 2 ^ (st.applyGate QuantumGates.H q).numQubits := by
    rw [applyGate_length, applyGate_numQubits]
    exact hlen
  rw [@applyGate_closed (st.applyGate QuantumGates.H q) q hq QuantumGates.H hlen2 u hu]
  rw [applyGate_numQubits]
  rw [applyGate_closed hq QuantumGates.H hlen hldlt,
    applyGate_closed hq QuantumGates.H hlen hormlt,
    ldiff_mask_ldiff, lor_mask_ldiff, ldiff_mask_lor,
    lor_mask_self (lor_mask_testBit_self u (st.numQubits - 1 - q))]
  have hbld : ((Nat.ldiff u (1 <<< (st.numQubits - 1 - q)))
      >>> (st.numQubits - 1 - q)) &&& 1 = 0 := by
    rw [bitIdx_eq, ldiff_mask_testBit_self]
    simp
  have hbor : ((u ||| 1 <<< (st.numQubits - 1 - q))
      >>> (st.numQubits - 1 - q)) &&& 1 = 1 := by
    rw [bitIdx_eq, lor_mask_testBit_self]
    simp
  rw [hbld, hbor]
  by_cases hub : u.testBit (st.numQubits - 1 - q) = true
  · have h1 : (u >>> (st.numQubits - 1 - q)) &&& 1 = 1 := by
      rw [bitIdx_eq, hub]
      simp
    have hloru : u ||| 1 <<< (st.numQubits - 1 - q) = u := lor_mask_self hub
    rw [h1, hloru]
    simp only [entry_H_00, entry_H_01, entry_H_10, entry_H_11]
    exact hh_algebra1 _ _
  · have hub0 : u.testBit (st.numQubits - 1 - q) = false := by
      cases h : u.testBit (st.numQubits - 1 - q)
      · rfl
      · exact absurd h hub
    have h0 : (u >>> (st.numQubits - 1 - q)) &&& 1 = 0 := by
      rw [bitIdx_eq, hub0]
      simp
    have hldu : Nat.ldiff u (1 <<< (st.numQubits - 1 - q)) = u := ldiff_mask_self hub0
    rw [h0, hldu]
    simp only [entry_H_00, entry_H_01, entry_H_10, entry_H_11]
    exact hh_algebra0 _ _

/-! Reduced density matrices and Bloch vectors of computational basis states. -/

theorem Complex.zero_real : (0 : Complex).real = 0 := rfl

theorem Complex.zero_imaginary : (0 : Complex).imaginary = 0 := rfl

theorem Complex.zero_multiply (z : Complex) : (Complex.mk 0 0).multiply z = 0 := by
  apply Complex.ext <;>
    simp [Complex.multiply, Complex.zero_real, Complex.zero_imaginary]

theorem Complex.multiply_conj_zero (z : Complex) :
    z.multiply ((Complex.mk 0 0).conjugate) = 0 := by
  apply Complex.ext <;>
    simp [Complex.multiply, Complex.conjugate, Complex.zero_real, Complex.zero_imaginary]

theorem Complex.one_multiply_conj_one :
    (Complex.mk 1 0).multiply ((Complex.mk 1 0).conjugate) = Complex.mk 1 0 := by
  apply Complex.ext <;>
    simp [Complex.multiply, Complex.conjugate]

theorem Complex.multiply_one (z : Complex) : z.multiply (Complex.mk 1 0) = z := by
  apply Complex.ext <;> simp [Complex.multiply]

theorem Complex.multiply_zero (z : Complex) : z.multiply (Complex.mk 0 0) = 0 := by
  apply Complex.ext <;>
    simp [Complex.multiply, Complex.zero_real, Complex.zero_imaginary]

/-- On a basis state e_k the partial-trace accumulation keeps only the (k, k)
term. -/
theorem reducedEntry_basis {st : QuantumState} {n k : Nat}
    (hlen : st.amplitudes.length = 2 ^ n) (hk : k < 2 ^ n)
    (hamp : ∀ i, i < 2 ^ n → st.amp i = ⟨if i = k then 1 else 0, 0⟩)
    (pos b0 b1 : Nat) :
    reducedEntry st pos b0 b1
      = if (k >>> pos) &&& 1 = b0 ∧ (k >>> pos) &&& 1 = b1 then
          Complex.mk 1 0 else 0 := by
  unfold reducedEntry
  simp only []
  rw [hlen]
  rw [Finset.sum_eq_single_of_mem k (Finset.mem_range.2 hk) ?hout]
  case hout =>
    intro i hi hik
    apply Finset.sum_eq_zero
    intro j _
    rw [hamp i (Finset.mem_range.1 hi), if_neg hik, Complex.zero_multiply]
    exact ite_self 0
  rw [Finset.sum_eq_single_of_mem k (Finset.mem_range.2 hk) ?hin]
  case hin =>
    intro j _ hjk
    rw [hamp j (Finset.mem_range.1 (by assumption)), if_neg hjk,
      Complex.multiply_conj_zero]
    exact ite_self 0
  rw [hamp k hk, if_pos rfl, Complex.one_multiply_conj_one]
  by_cases hb : (k >>> pos) &&& 1 = b0 ∧ (k >>> pos) &&& 1 = b1
  · rw [if_pos ⟨hb.1, hb.2, rfl⟩, if_pos hb]
  · rw [if_neg (fun hc => hb ⟨hc.1, hc.2.1⟩), if_neg hb]

/-- The reduced density matrix of a basis state is the diagonal projector on
the state of the selected qubit's bit. -/
theorem getReducedDensityMatrix_basis {st : QuantumState} {n k q : Nat}
    (hn : st.numQubits = n) (hq : q < n)
    (hlen : st.amplitudes.length = 2 ^ n) (hk : k < 2 ^ n)
    (hamp : ∀ i, i < 2 ^ n → st.amp i = ⟨if i = k then 1 else 0, 0⟩) :
    st.getReducedDensityMatrix (q : Int)
      = .ok [[if (k >>> (n - 1 - q)) &&& 1 = 0 then Complex.mk 1 0 else 0, 0],
             [0, if (k >>> (n - 1 - q)) &&& 1 = 1 then Complex.mk 1 0 else 0]] := by
  unfold QuantumState.getReducedDensityMatrix
  rw [hn]
  rw [if_neg (by omega)]
  have hpos : (((n : Int)) - 1 - (q : Int)).toNat = n - 1 - q := by omega
  rw [hpos]
  dsimp only
  have hre := reducedEntry_basis hlen hk hamp (n - 1 - q)
  rw [hre 0 0, hre 0 1, hre 1 0, hre 1 1]
  have hb01 : ¬ ((k >>> (n - 1 - q)) &&& 1 = 0 ∧ (k >>> (n - 1 - q)) &&& 1 = 1) := by
    rintro ⟨h0, h1⟩
    rw [h0] at h1
    cases h1
  have hb10 : ¬ ((k >>> (n - 1 - q)) &&& 1 = 1 ∧ (k >>> (n - 1 - q)) &&& 1 = 0) := by
    rintro ⟨h0, h1⟩
    rw [h0] at h1
    cases h1
  rw [if_neg hb01, if_neg hb10]
  congr 1
  by_cases hb : (k >>> (n - 1 - q)) &&& 1 = 0
  · have hb1 : ¬ (k >>> (n - 1 - q)) &&& 1 = 1 := by rw [hb]; simp
    rw [if_pos ⟨hb, hb⟩, if_pos hb, if_neg (fun hc => hb1 hc.1), if_neg hb1]
  · have hb1 : (k >>> (n - 1 - q)) &&& 1 = 1 := by
      rw [bitIdx_eq] at hb ⊢
      cases h : k.testBit (n - 1 - q)
      · rw [h] at hb; simp at hb
      · simp
    rw [if_neg (fun hc => hb hc.1), if_neg hb, if_pos ⟨hb1, hb1⟩, if_pos hb1]

/-- The Bloch vector of a basis state is (0, 0, ±1) according to the selected
qubit's bit. -/
theorem getBlochVector_basis {st : QuantumState} {n k q : Nat}
    (hn : st.numQubits = n) (hq : q < n)
    (hlen : st.amplitudes.length = 2 ^ n) (hk : k < 2 ^ n)
    (hamp : ∀ i, i < 2 ^ n → st.amp i = ⟨if i = k then 1 else 0, 0⟩) :
    st.getBlochVector (q : Int)
      = .ok ⟨0, 0, if (k >>> (n - 1 - q)) &&& 1 = 1 then -1 else 1⟩ := by
  unfold QuantumState.getBlochVector
  rw [getReducedDensityMatrix_basis hn hq hlen hk hamp]
  simp only []
  by_cases hb : (k >>> (n - 1 - q)) &&& 1 = 1
  · have hb0 : ¬ (k >>> (n - 1 - q)) &&& 1 = 0 := by rw [hb]; simp
    rw [if_neg hb0, if_pos hb, if_pos hb]
    congr 2 <;>
      simp [entry, Complex.add, Complex.subtract, Complex.multiply,
        Complex.zero_real, Complex.zero_imaginary]
  · have hb0 : (k >>> (n - 1 - q)) &&& 1 = 0 := by
      rw [bitIdx_eq] at hb ⊢
      cases h : k.testBit (n - 1 - q)
      · simp
      · rw [h] at hb; simp at hb
    rw [if_pos hb0, if_neg hb, if_neg hb]
    congr 2 <;>
      simp [entry, Complex.add, Complex.subtract, Complex.multiply,
        Complex.zero_real, Complex.zero_imaginary]

/-! X applied to the zero state produces the basis state with the selected
qubit's bit set. -/

theorem entry_X_00 : entry QuantumGates.X 0 0 = Complex.mk 0 0 := rfl

theorem entry_X_01 : entry QuantumGates.X 0 1 = Complex.mk 1 0 := rfl

theorem entry_X_10 : entry QuantumGates.X 1 0 = Complex.mk 1 0 := rfl

theorem entry_X_11 : entry QuantumGates.X 1 1 = Complex.mk 0 0 := rfl

theorem mask_testBit_self (p : Nat) : (1 <<< p).testBit p = true := by
  rw [testBit_mask]
  simp

theorem ne_zero_of_testBit {x p : Nat} (h : x.testBit p = true) : x ≠ 0 := by
  intro hx
  rw [hx, Nat.zero_testBit] at h
  cases h

theorem ldiff_mask_eq_zero_iff {u p : Nat} (hu : u.testBit p = true) :
    Nat.ldiff u (1 <<< p) = 0 ↔ u = 1 <<< p := by
  constructor
  · intro h
    apply Nat.eq_of_testBit_eq
    intro i
    by_cases hip : p = i
    · subst hip
      rw [hu, mask_testBit_self]
    · have hbi := congrArg (fun x => x.testBit i) h
      simp only [ldiff_mask_testBit, decide_eq_false (show ¬ p = i from hip),
        Bool.not_false, Bool.and_true, Nat.zero_testBit] at hbi
      rw [hbi, testBit_mask, decide_eq_false (show ¬ p = i from hip)]
  · intro h
    subst h
    apply Nat.eq_of_testBit_eq
    intro i
    rw [ldiff_mask_testBit, Nat.zero_testBit, testBit_mask]
    by_cases hip : p = i <;> simp [hip]

theorem applyGate_X_zero_amp {n q : Nat} (hq : q < n) {u : Nat} (hu : u < 2 ^ n) :
    ((QuantumState.construct n none).applyGate QuantumGates.X q).amp u
      = ⟨if u = 1 <<< (n - 1 - q) then 1 else 0, 0⟩ := by
  have hp : n - 1 - q < n := by omega
  have hldlt : Nat.ldiff u (1 <<< (n - 1 - q)) < 2 ^ n := ldiff_mask_lt _ hu hp
  have hormlt : u ||| 1 <<< (n - 1 - q) < 2 ^ n := lor_mask_lt _ hu hp
  rw [@applyGate_closed (QuantumState.construct n none) q hq QuantumGates.X
    (construct_none_length n) u hu]
  show ((QuantumState.construct n none).amp (Nat.ldiff u (1 <<< (n - 1 - q)))).multiply
      (entry QuantumGates.X ((u >>> (n - 1 - q)) &&& 1) 0)
    + ((QuantumState.construct n none).amp (u ||| 1 <<< (n - 1 - q))).multiply
      (entry QuantumGates.X ((u >>> (n - 1 - q)) &&& 1) 1) = _
  rw [construct_none_amp hldlt, construct_none_amp hormlt]
  by_cases hub : u.testBit (n - 1 - q) = true
  · have h1 : (u >>> (n - 1 - q)) &&& 1 = 1 := by
      rw [bitIdx_eq, hub]
      simp
    rw [h1, entry_X_10, entry_X_11, Complex.multiply_one, Complex.multiply_zero,
      add_zero]
    by_cases hz : Nat.ldiff u (1 <<< (n - 1 - q)) = 0
    · rw [if_pos hz, if_pos ((ldiff_mask_eq_zero_iff hub).1 hz)]
    · rw [if_neg hz, if_neg (fun h => hz ((ldiff_mask_eq_zero_iff hub).2 h))]
  · have hub0 : u.testBit (n - 1 - q) = false := by
      cases h : u.testBit (n - 1 - q)
      · rfl
      · exact absurd h hub
    have h0 : (u >>> (n - 1 - q)) &&& 1 = 0 := by
      rw [bitIdx_eq, hub0]
      simp
    rw [h0, entry_X_00, entry_X_01, Complex.multiply_one, Complex.multiply_zero,
      zero_add]
    rw [if_neg (ne_zero_of_testBit (lor_mask_testBit_self u (n - 1 - q))),
      if_neg (by
        intro h
        rw [h, mask_testBit_self] at hub0
        cases hub0)]

/-! The executor: a cutoff run applies exactly the placements before the
cutoff, in ascending step order; a full run applies all of them; unrecognized
symbols are skipped without stopping the walk. -/

theorem sortGates_sorted (gates : List QuantumGate) :
    (sortGates gates).Pairwise (fun a b => gateLe a b = true) := by
  apply List.sorted_mergeSort
  · intro a b c hab hbc
    simp only [gateLe, decide_eq_true_eq] at hab hbc ⊢
    omega
  · intro a b
    simp only [gateLe]
    rcases Nat.le_total a.step b.step with h | h <;> simp [h]

theorem sortGates_perm (gates : List QuantumGate) : (sortGates gates).Perm gates :=
  List.mergeSort_perm gates gateLe

/-- On a step-sorted list, the break-at-cutoff walk of `updateSteppedState`
computes the same state as filtering to the placements before the cutoff and
folding over those. -/
theorem applyUpTo_filter (c : Nat) :
    ∀ L : List QuantumGate, L.Pairwise (fun a b => gateLe a b = true) →
    ∀ st : QuantumState,
      applyUpTo c st L
        = (L.filter (fun g => decide (g.step < c))).foldl applyPlacement st := by
  intro L
  induction L with
  | nil =>
    intro _ st
    rfl
  | cons g rest ih =>
    intro hp st
    by_cases hc : c ≤ g.step
    · have hgf : ¬ decide (g.step < c) = true := by simp; omega
      have hrest : (g :: rest).filter (fun g => decide (g.step < c)) = [] := by
        rw [List.filter_cons, if_neg hgf]
        rw [List.filter_eq_nil_iff]
        intro x hx
        have hle := (List.pairwise_cons.1 hp).1 x hx
        simp only [gateLe, decide_eq_true_eq] at hle
        simp
        omega
      rw [hrest]
      have hstep : applyUpTo c st (g :: rest)
          = if c ≤ g.step then st else applyUpTo c (applyPlacement st g) rest := rfl
      rw [hstep, if_pos hc]
      rfl
    · have hgf : decide (g.step < c) = true := by simp; omega
      rw [List.filter_cons, if_pos hgf, List.foldl_cons]
      have hstep : applyUpTo c st (g :: rest)
          = if c ≤ g.step then st else applyUpTo c (applyPlacement st g) rest := rfl
      rw [hstep, if_neg hc]
      exact ih (List.pairwise_cons.1 hp).2 _

/-- The stepped run equals the filter-then-fold form. -/
theorem updateSteppedState_filter (n c : Nat) (gates : List QuantumGate) :
    updateSteppedState n c gates
      = ((sortGates gates).filter (fun g => decide (g.step < c))).foldl applyPlacement
          (QuantumState.construct n none) :=
  applyUpTo_filter c (sortGates gates) (sortGates_sorted gates) _

theorem le_foldl_max (l : List Nat) :
    ∀ a : Nat, a ≤ l.foldl max a ∧ ∀ x ∈ l, x ≤ l.foldl max a := by
  induction l with
  | nil =>
    intro a
    simp
  | cons y ys ih =>
    intro a
    rw [List.foldl_cons]
    refine ⟨le_trans (le_max_left a y) (ih (max a y)).1, ?_⟩
    intro x hx
    rcases List.mem_cons.1 hx with rfl | hx
    · exact le_trans (le_max_right a x) (ih (max a x)).1
    · exact (ih (max a y)).2 x hx

/-- The full run (`handleCircuitRun`) coincides with the stepped run whose
cutoff is the export's `totalSteps`: every placement is applied. -/
theorem handleCircuitRun_eq_stepped (n : Nat) (gates : List QuantumGate) :
    handleCircuitRun n gates = updateSteppedState n (exportTotalSteps gates) gates := by
  rw [updateSteppedState_filter]
  unfold handleCircuitRun
  congr 1
  symm
  rw [List.filter_eq_self]
  intro g hg
  have hmem : g ∈ gates := (sortGates_perm gates).mem_iff.1 hg
  have hle : g.step ≤ (gates.map (fun g => g.step)).foldl max 0 :=
    (le_foldl_max _ 0).2 g.step (List.mem_map.2 ⟨g, hmem, rfl⟩)
  simp only [exportTotalSteps, decide_eq_true_eq]
  omega

/-- A placement whose symbol is none of the five recognized ones leaves the
state unchanged. -/
theorem applyPlacement_skip {st : QuantumState} {g : QuantumGate}
    (h1 : g.symbol ≠ "Pₓ") (h2 : g.symbol ≠ "Pᵧ") (h3 : g.symbol ≠ "Pᵨ")
    (h4 : g.symbol ≠ "H") (h5 : g.symbol ≠ "S") :
    applyPlacement st g = st := by
  unfold applyPlacement
  rw [if_neg h1, if_neg h2, if_neg h3, if_neg h4, if_neg h5]

/-- Skipping is silent: the walk continues over the remaining placements. -/
theorem applyUpTo_skip {c : Nat} {g : QuantumGate} (hstep : g.step < c)
    (h1 : g.symbol ≠ "Pₓ") (h2 : g.symbol ≠ "Pᵧ") (h3 : g.symbol ≠ "Pᵨ")
    (h4 : g.symbol ≠ "H") (h5 : g.symbol ≠ "S")
    (st : QuantumState) (rest : List QuantumGate) :
    applyUpTo c st (g :: rest) = applyUpTo c st rest := by
  show (if c ≤ g.step then st else applyUpTo c (applyPlacement st g) rest) = _
  rw [if_neg (by omega), applyPlacement_skip h1 h2 h3 h4 h5]

/-! The heap model: gate application writes only a fresh cell, so the
receiver's amplitude array is unchanged and the result is a new instance. -/

theorem applyGateRef_frame {h : Heap} {next : Nat} {st : StateRef} (g : Gate)
    (q : Nat) (hfresh : st.ref < next) :
    getAmplitudesRef (applyGateRef h next st g q).1 st = getAmplitudesRef h st := by
  unfold applyGateRef getAmplitudesRef heapWrite
  simp only []
  rw [if_neg (by omega)]

theorem applyCNOTRef_frame {h : Heap} {next : Nat} {st : StateRef}
    (control target : Nat) (hfresh : st.ref < next) :
    getAmplitudesRef (applyCNOTRef h next st control target).1 st
      = getAmplitudesRef h st := by
  unfold applyCNOTRef getAmplitudesRef heapWrite
  simp only []
  rw [if_neg (by omega)]

/-! Claim theorems. -/

/-- The two-qubit basis state |10⟩ (amplitude 1 at index 2). -/
def basisTwoQubitTen : List Complex := [⟨0, 0⟩, ⟨0, 0⟩, ⟨1, 0⟩, ⟨0, 0⟩]

/-- C1: `applyCNOT(0, 1)` is required to turn |10⟩ into |11⟩, but the per-index
swap pass visits both members of each qualifying pair and so swaps each pair
twice: the code returns |10⟩ unchanged, and the amplitude of |11⟩ (index 3)
stays 0 instead of becoming 1. -/
theorem cnot_flips_target_failing :
    ((QuantumState.construct 2 (some basisTwoQubitTen)).applyCNOT 0 1).amplitudes
      = basisTwoQubitTen
    ∧ (((QuantumState.construct 2 (some basisTwoQubitTen)).applyCNOT 0 1).amplitudes.getD 3
        Complex.zero).real = 0 := by
  have h := @applyCNOT_id (QuantumState.construct 2 (some basisTwoQubitTen))
    0 1 (by decide) (by decide) (by decide) rfl
  refine ⟨h, ?_⟩
  rw [h]
  rfl

/-- C2 counterexample: a length-1 initial amplitude sequence for a 1-qubit
state (2^1 = 2 slots expected) is accepted: the constructor returns a state
whose amplitude vector has the mismatched length 1, rather than failing. -/
theorem construct_no_validation_counterexample :
    (QuantumState.construct 1 (some [Complex.mk 1 0])).amplitudes.length = 1
    ∧ (QuantumState.construct 1 (some [Complex.mk 1 0])).amplitudes.length
        ≠ 2 ^ (QuantumState.construct 1 (some [Complex.mk 1 0])).numQubits := by
  exact ⟨rfl, by decide⟩

/-- C2 (amended): the constructor performs no validation of the supplied
initial amplitude sequence: it copies the sequence verbatim into the new
state, whatever its length. -/
theorem construct_copies_initialState (n : Nat) (init : List Complex) :
    (QuantumState.construct n (some init)).amplitudes = init
    ∧ (QuantumState.construct n (some init)).numQubits = n :=
  ⟨rfl, rfl⟩

/-- C3 counterexample: the negative qubit index −1 on a 1-qubit state passes
the guard (which only checks `qubitIndex >= numQubits`) and the call succeeds
instead of failing. -/
theorem reducedDensityMatrix_negative_counterexample :
    ((QuantumState.construct 1 none).getReducedDensityMatrix (-1)).isOk = true :=
  rfl

/-- C3 (amended): `getReducedDensityMatrix(qubitIndex)` fails exactly when
`qubitIndex ≥ numQubits`; every index below `numQubits` — in particular every
negative index — succeeds. -/
theorem reducedDensityMatrix_fails_iff (st : QuantumState) (qubitIndex : Int) :
    (st.getReducedDensityMatrix qubitIndex).isOk = true
      ↔ qubitIndex < (st.numQubits : Int) := by
  unfold QuantumState.getReducedDensityMatrix
  by_cases h : qubitIndex ≥ (st.numQubits : Int)
  · rw [if_pos h]
    simp only [Except.isOk]
    constructor
    · intro hc
      cases hc
    · intro hc
      omega
  · rw [if_neg h]
    simp only [Except.isOk]
    constructor
    · intro _
      omega
    · intro _
      rfl

/-- C4 counterexample: on the empty circuit each of the three depth
computations yields `Math.max(0) + 1 = 1`, while the spec's `depth()` is 0. -/
theorem depth_empty_counterexample :
    builderDepth [] = 1 ∧ specDepth [] = 0 ∧ builderDepth [] ≠ specDepth [] :=
  ⟨rfl, rfl, by decide⟩

/-- C4 (amended): the builder display, the export's `totalSteps` and the
validator's `maxDepth` all compute `max(steps ∪ {0}) + 1`; this equals
`max(step) + 1` whenever at least one placement exists, but equals 1 (not 0)
on the empty circuit. -/
theorem depth_computations_agree (gates : List QuantumGate) :
    builderDepth gates = exportTotalSteps gates
    ∧ builderDepth gates = validatorMaxDepth gates
    ∧ (gates ≠ [] → builderDepth gates = specDepth gates)
    ∧ builderDepth [] = 1 := by
  refine ⟨rfl, rfl, ?_, rfl⟩
  intro h
  cases gates with
  | nil => exact absurd rfl h
  | cons g rest => rfl

theorem depth_computations_agree_witness :
    builderDepth [⟨"Pauli-X", "Pₓ", "Bit flip gate", "half-turn", 0, 0⟩]
      = specDepth [⟨"Pauli-X", "Pₓ", "Bit flip gate", "half-turn", 0, 0⟩] :=
  (depth_computations_agree _).2.2.1 (List.cons_ne_nil _ _)

/-- C5: any sequence of catalog single-qubit gate applications on in-range
qubits, started from the fresh n-qubit zero state, keeps Σ|amplitude|² within
1e-9 of 1 (over the idealized reals the sum stays exactly 1; nothing ever
renormalizes). -/
theorem catalog_sequence_norm (n : Nat) (ops : List (CatalogGate × Nat))
    (hn : 1 ≤ n) (hq : ∀ p ∈ ops, p.2 < n) :
    |totalProbability (runGates n ops) - 1| ≤ 1e-9 := by
  rw [runGates_totalProbability ops hq]
  norm_num

theorem catalog_sequence_norm_witness :
    |totalProbability (runGates 1 [(CatalogGate.H, 0)]) - 1| ≤ 1e-9 :=
  catalog_sequence_norm 1 [(CatalogGate.H, 0)] (le_refl 1)
    (by
      intro p hp
      rw [List.mem_singleton] at hp
      subst hp
      exact Nat.zero_lt_one)

/-- C6: applying H twice to the same in-range qubit of any well-formed state
returns each amplitude within 1e-9 of the original (the difference is exactly
zero over the idealized reals: H is self-inverse). -/
theorem H_twice_identity (st : QuantumState) (q : Nat) (hq : q < st.numQubits)
    (hlen : st.amplitudes.length = 2 ^ st.numQubits) (u : Nat)
    (hu : u < 2 ^ st.numQubits) :
    ((((st.applyGate QuantumGates.H q).applyGate QuantumGates.H q).amp u).subtract
      (st.amp u)).magnitude ≤ 1e-9 := by
  rw [applyGate_H_H_amp hq hlen hu]
  have hz : (st.amp u).subtract (st.amp u) = Complex.mk 0 0 := by
    apply Complex.ext <;> simp [Complex.subtract]
  rw [hz]
  have hm : (Complex.mk 0 0).magnitude = 0 := by
    unfold Complex.magnitude
    simp
  rw [hm]
  norm_num

theorem H_twice_identity_witness :
    (((((QuantumState.construct 1 none).applyGate QuantumGates.H 0).applyGate
        QuantumGates.H 0).amp 0).subtract
      ((QuantumState.construct 1 none).amp 0)).magnitude ≤ 1e-9 :=
  H_twice_identity (QuantumState.construct 1 none) 0 (by decide)
    (construct_none_length 1) 0 (by decide)

/-- C7: from the all-zero n-qubit state, applying X to qubit q sends the Bloch
vector of q to (0, 0, −1); without the gate it is (0, 0, 1). -/
theorem bloch_X_zero_state (n q : Nat) (hn : 1 ≤ n) (hq : q < n) :
    ((QuantumState.construct n none).applyGate QuantumGates.X q).getBlochVector (q : Int)
      = .ok ⟨0, 0, -1⟩
    ∧ (QuantumState.construct n none).getBlochVector (q : Int) = .ok ⟨0, 0, 1⟩ := by
  have hp : n - 1 - q < n := by omega
  constructor
  · have hk : 1 <<< (n - 1 - q) < 2 ^ n := mask_lt hp
    have hlen1 : ((QuantumState.construct n none).applyGate QuantumGates.X q).amplitudes.length
        = 2 ^ n := by
      rw [applyGate_length, construct_none_length]
    have hbl := @getBlochVector_basis
      ((QuantumState.construct n none).applyGate QuantumGates.X q)
      n (1 <<< (n - 1 - q)) q rfl hq hlen1 hk
      (fun i hi => applyGate_X_zero_amp hq hi)
    rw [hbl]
    have hbit : ((1 <<< (n - 1 - q)) >>> (n - 1 - q)) &&& 1 = 1 := by
      rw [bitIdx_eq, mask_testBit_self]
      simp
    rw [hbit]
    rfl
  · have hk0 : 0 < 2 ^ n := Nat.pos_pow_of_pos n (by norm_num)
    have hbl := @getBlochVector_basis (QuantumState.construct n none)
      n 0 q rfl hq (construct_none_length n) hk0
      (fun i hi => construct_none_amp hi)
    rw [hbl]
    have hbit : ((0 : Nat) >>> (n - 1 - q)) &&& 1 = 0 := by
      rw [Nat.zero_shiftRight]
      rfl
    rw [hbit]
    rfl

theorem bloch_X_zero_state_witness :
    ((QuantumState.construct 1 none).applyGate QuantumGates.X 0).getBlochVector
        ((0 : Nat) : Int) = .ok ⟨0, 0, -1⟩
    ∧ (QuantumState.construct 1 none).getBlochVector ((0 : Nat) : Int)
        = .ok ⟨0, 0, 1⟩ :=
  bloch_X_zero_state 1 0 (le_refl 1) (by decide)

/-- C8: a stepped run applies, in ascending placement-step order, exactly the
placements with `step <` the cutoff; the full run equals the stepped run cut
at `totalSteps`, i.e. applies every placement; a placement none of whose
symbols the executor's switch recognizes is skipped while execution of the
remaining placements continues. -/
theorem executor_semantics (n c : Nat) (gates : List QuantumGate)
    (g : QuantumGate) (rest : List QuantumGate) (st : QuantumState) :
    (updateSteppedState n c gates
      = ((sortGates gates).filter (fun g => decide (g.step < c))).foldl applyPlacement
          (QuantumState.construct n none))
    ∧ handleCircuitRun n gates = updateSteppedState n (exportTotalSteps gates) gates
    ∧ (g.step < c → g.symbol ≠ "Pₓ" → g.symbol ≠ "Pᵧ" → g.symbol ≠ "Pᵨ" →
        g.symbol ≠ "H" → g.symbol ≠ "S" →
        applyUpTo c st (g :: rest) = applyUpTo c st rest) :=
  ⟨updateSteppedState_filter n c gates, handleCircuitRun_eq_stepped n gates,
   fun hs h1 h2 h3 h4 h5 => applyUpTo_skip hs h1 h2 h3 h4 h5 st rest⟩

theorem executor_semantics_witness :
    applyUpTo 1 (QuantumState.construct 1 none)
        [⟨"Custom", "+", "Custom gate", "custom", 0, 0⟩]
      = applyUpTo 1 (QuantumState.construct 1 none) [] :=
  (executor_semantics 1 1 [] ⟨"Custom", "+", "Custom gate", "custom", 0, 0⟩ []
    (QuantumState.construct 1 none)).2.2 (by decide) (by decide) (by decide)
    (by decide) (by decide) (by decide)

/-- C9: in the heap model, `applyGate` and `applyCNOT` write only a fresh cell
and return an instance referencing that cell: the receiver's amplitude array,
as observed through `getAmplitudes`, is identical before and after the call,
and the returned instance is a new one. -/
theorem apply_no_mutation (h : Heap) (next : Nat) (st : StateRef) (g : Gate)
    (q control target : Nat) (hfresh : st.ref < next) :
    getAmplitudesRef (applyGateRef h next st g q).1 st = getAmplitudesRef h st
    ∧ getAmplitudesRef (applyCNOTRef h next st control target).1 st
        = getAmplitudesRef h st
    ∧ (applyGateRef h next st g q).2.2.ref ≠ st.ref
    ∧ (applyCNOTRef h next st control target).2.2.ref ≠ st.ref :=
  ⟨applyGateRef_frame g q hfresh, applyCNOTRef_frame control target hfresh,
   by show next ≠ st.ref; omega, by show next ≠ st.ref; omega⟩

theorem apply_no_mutation_witness :
    getAmplitudesRef (applyGateRef (fun _ => []) 1 ⟨1, 0⟩ QuantumGates.X 0).1 ⟨1, 0⟩
      = getAmplitudesRef (fun _ => []) ⟨1, 0⟩ :=
  (apply_no_mutation (fun _ => []) 1 ⟨1, 0⟩ QuantumGates.X 0 0 1 (by decide)).1

/-- C10: for any well-formed state with at least two qubits and any pair of
distinct in-range qubits, `applyCNOT` returns a state whose amplitude vector
equals the original exactly: the per-index pass swaps each qualifying pair
twice, and the composition is the identity. -/
theorem applyCNOT_identity (st : QuantumState) (control target : Nat)
    (hn : 2 ≤ st.numQubits) (hc : control < st.numQubits)
    (ht : target < st.numQubits) (hne : control ≠ target)
    (hlen : st.amplitudes.length = 2 ^ st.numQubits) :
    (st.applyCNOT control target).amplitudes = st.amplitudes :=
  applyCNOT_id hc ht hne hlen

theorem applyCNOT_identity_witness :
    ((QuantumState.construct 2 none).applyCNOT 0 1).amplitudes
      = (QuantumState.construct 2 none).amplitudes :=
  applyCNOT_identity (QuantumState.construct 2 none) 0 1 (by decide) (by decide)
    (by decide) (by decide) (construct_none_length 2)

end QBloch
